import Mathlib

/-!
Verification development for the indic-text-normalization core engine
(`text_normalization/normalize.py` and the Hindi `tokenize_and_classify.py`).

The Python data model and operations are shallowly embedded:

* Token trees (the nested `OrderedDict` structures produced by the token
  parser) become the mutual inductives `TokVal` / `TokDict`; insertion
  order of fields is the list order.
* `Normalizer._estimate_number_of_permutations_in_nested_dict` becomes
  `TokDict.estimate`.
* `Normalizer._split_tokens_to_reduce_number_of_permutations` becomes
  `splitTokens` (raising `ValueError` is modelled as `Except.error`).
* `Normalizer._permute` / `generate_permutations` become `TokDict.permute` /
  `generatePermutations` (strings are modelled as `List Char`).
* `Normalizer.normalize`'s control flow (with `punct_pre_process = False`,
  `punct_post_process = False` and no post-processor, and the tagger and
  verbalizer FSTs abstracted into an `Engine` of lattice-producing
  functions, a lattice being its list of weighted accepting paths) becomes
  `normalize`; a Python exception escaping `normalize` is modelled as
  `Except.error`.
* The `cdrewrite` joiner-hyphen rule of the Hindi classifier becomes
  `hyphenRewrite`.
-/

namespace IndicTN

mutual
/-- Token-tree values: a field value is a string, the boolean `true`
(serialized `key: true`, as the Python serializer emits for `bool` values),
or a nested ordered dictionary.  Mirrors the value types accepted by
`Normalizer._permute` (`str`, `bool`, `OrderedDict`). -/
inductive TokVal where
  | vstr : String → TokVal
  | vbool : TokVal
  | vdict : TokDict → TokVal

/-- An ordered dictionary of field name to value, in insertion order
(Python `OrderedDict`). -/
inductive TokDict where
  | nil : TokDict
  | cons : String → TokVal → TokDict → TokDict
end

deriving instance DecidableEq for TokVal
deriving instance DecidableEq for TokDict

/-- Number of top-level entries of a dictionary (Python `len(token_group)`). -/
def TokDict.length : TokDict → Nat
  | .nil => 0
  | .cons _ _ rest => rest.length + 1

/-- The entries of a dictionary as a list of key/value pairs
(Python `d.items()`). -/
def TokDict.toList : TokDict → List (String × TokVal)
  | .nil => []
  | .cons k v rest => (k, v) :: rest.toList

/-- Key membership test (Python `key in d.keys()`). -/
def TokDict.hasKey : TokDict → String → Bool
  | .nil, _ => false
  | .cons k _ rest, key => k = key || rest.hasKey key

/-- The `PRESERVE_ORDER_KEY` constant imported from `token_parser`.
Modelled from the spec: `token_parser.py` is not among the sources; §3 of
the spec names the marker `preserve_order: true`. -/
def preserveOrderKey : String := "preserve_order"

mutual
/- estimate helpers, mutually recursive over the nested tree -/
/-- Factor a single value contributes to the permutation estimate of its
enclosing dictionary: nested dictionaries contribute their own estimate,
strings and booleans contribute 1.  Mirrors the
`isinstance(inner, dict)` branch of
`Normalizer._estimate_number_of_permutations_in_nested_dict`. -/
def TokVal.childFactor : TokVal → Nat
  | .vstr _ => 1
  | .vbool => 1
  | .vdict d => d.prodChildren * Nat.factorial d.length

/-- Product of the child factors of all entries, in order (the loop of
`_estimate_number_of_permutations_in_nested_dict` before the final
`factorial` multiplication). -/
def TokDict.prodChildren : TokDict → Nat
  | .nil => 1
  | .cons _ v rest => v.childFactor * rest.prodChildren
end

/-- `Normalizer._estimate_number_of_permutations_in_nested_dict`: the
running product over nested children times `factorial(len(token_group))`.
The Python code multiplies the factorial last; multiplication order does
not change the value. -/
def TokDict.estimate (d : TokDict) : Nat :=
  d.prodChildren * Nat.factorial d.length

/-- The single error raised by the splitting routine: the `ValueError` of
`_split_tokens_to_reduce_number_of_permutations` ("There is an unsplittable
token group..."), the spec's `PermutationBoundExceeded`. -/
inductive SplitError where
  | permutationBoundExceeded
deriving DecidableEq

/-- The loop body of `_split_tokens_to_reduce_number_of_permutations`.
`chunk` is the slice `tokens[prev_end_of_split:i]` accumulated so far,
`cur` is `current_number_of_permutations`, and `rest` the remaining
tokens.  When `n * cur > M` the current chunk is closed and a fresh one
started; when a single token's estimate `n` exceeds `M`, the `ValueError`
is raised. -/
def splitGo (M : Nat) : List TokDict → Nat → List TokDict →
    Except SplitError (List (List TokDict))
  | chunk, _, [] => .ok [chunk]
  | chunk, cur, t :: ts =>
    let n := t.estimate
    if n * cur > M then
      if n > M then .error .permutationBoundExceeded
      else (splitGo M [t] n ts).map (chunk :: ·)
    else
      if n > M then .error .permutationBoundExceeded
      else splitGo M (chunk ++ [t]) (cur * n) ts

/-- `Normalizer._split_tokens_to_reduce_number_of_permutations` with bound
`M = self.max_number_of_permutations_per_split`. -/
def splitTokens (M : Nat) (tokens : List TokDict) :
    Except SplitError (List (List TokDict)) :=
  splitGo M [] 1 tokens

/-- Product of the permutation estimates of the tokens of one chunk. -/
def chunkProd (c : List TokDict) : Nat :=
  c.foldl (fun acc t => acc * t.estimate) 1

/-- All ways of selecting one element of a list together with the others
in their original order, in index order: the branching step of
`itertools.permutations`. -/
def pySelections {α : Type} : List α → List (α × List α)
  | [] => []
  | x :: xs => (x, xs) :: (pySelections xs).map (fun p => (p.1, x :: p.2))

/-- Fuelled enumeration of permutations in the lexicographic-by-original-
index order produced by `itertools.permutations`.  The fuel equals the
list length whenever it is reached through `pyPermutations`. -/
def pyPermAux {α : Type} : Nat → List α → List (List α)
  | 0, _ => [[]]
  | n + 1, l => (pySelections l).flatMap (fun p => (pyPermAux n p.2).map (p.1 :: ·))

/-- `itertools.permutations`, as a list of reorderings in enumeration
order (the identity ordering first). -/
def pyPermutations {α : Type} (l : List α) : List (List α) :=
  pyPermAux l.length l

/-- Cartesian product of per-entry option lists, concatenating the chosen
strings.  This is the `subl` accumulation of `Normalizer._permute`:
`subl = ["".join(x) for x in itertools.product(subl, options)]` applied
entry by entry (earlier entries vary slowest, matching
`itertools.product`). -/
def cartesian : List (List (List Char)) → List (List Char)
  | [] => [[]]
  | opts :: rest => opts.flatMap (fun o => (cartesian rest).map (o ++ ·))

/-- Assembly step of `Normalizer._permute`: if `PRESERVE_ORDER_KEY` is
present only the given entry order is serialized
(`d_permutations = [d.items()]`), otherwise every permutation of the
entries is (`itertools.permutations(d.items())`); `l.extend(subl)`
concatenates the serializations over the orderings.  The serialization
options of each entry depend only on the entry, not on its position, so
they are precomputed per entry and the orderings permute the per-entry
option lists. -/
def assemblePermute (preserve : Bool) (annotated : List (List (List Char))) :
    List (List Char) :=
  if preserve then cartesian annotated
  else (pyPermutations annotated).flatMap cartesian

mutual
/-- The string serializations one entry `(k, v)` can contribute inside
`Normalizer._permute`:
a `str` value gives `k: "v" `, a `bool` value gives `k: true `, and a
nested dictionary gives ` k { ` ++ r ++ ` } ` for every serialization `r`
of the nested dictionary. -/
def TokVal.optionsOf : String → TokVal → List (List Char)
  | k, .vstr s => [k.data ++ [':', ' ', '"'] ++ s.data ++ ['"', ' ']]
  | k, .vbool => [k.data ++ (": true ").data]
  | k, .vdict d =>
    (assemblePermute (d.hasKey preserveOrderKey) d.entryOptions).map
      (fun r => ' ' :: k.data ++ [' ', '\x7b', ' '] ++ r ++ [' ', '\x7d', ' '])

/-- Per-entry serialization options of all entries of a dictionary, in
entry order. -/
def TokDict.entryOptions : TokDict → List (List (List Char))
  | .nil => []
  | .cons k v rest => TokVal.optionsOf k v :: rest.entryOptions
end

/-- `Normalizer._permute`: every string serialization of the dictionary,
over every admissible entry ordering, in enumeration order. -/
def TokDict.permute (d : TokDict) : List (List Char) :=
  assemblePermute (d.hasKey preserveOrderKey) d.entryOptions

/-- `Normalizer.generate_permutations`: serializations of a token list,
prefix-concatenated in the order of the recursive generator `_helper`
(options of the first token vary slowest). -/
def generatePermutations : List TokDict → List (List Char)
  | [] => [[]]
  | t :: ts => t.permute.flatMap (fun opt => (generatePermutations ts).map (opt ++ ·))

mutual
/-- The in-order ("identity permutation") serialization of one entry:
the first element of `TokVal.optionsOf`.  This is the tagged-serialization
writer whose output the token parser reads back. -/
def TokVal.serializeEntry : String → TokVal → List Char
  | k, .vstr s => k.data ++ [':', ' ', '"'] ++ s.data ++ ['"', ' ']
  | k, .vbool => k.data ++ (": true ").data
  | k, .vdict d =>
    ' ' :: k.data ++ [' ', '\x7b', ' '] ++ d.serialize ++ [' ', '\x7d', ' ']

/-- In-order serialization of a dictionary: concatenation of its entries'
serializations. -/
def TokDict.serialize : TokDict → List Char
  | .nil => []
  | .cons k v rest => TokVal.serializeEntry k v ++ rest.serialize
end

/-- Serialization of a top-level token list: the concatenation produced by
`generate_permutations` when each token contributes its in-order
serialization. -/
def serializeTokens (ts : List TokDict) : List Char :=
  (ts.map TokDict.serialize).flatten

/-- Characters with structural meaning in the tagged serialization: they
terminate an identifier. -/
def specialChar (c : Char) : Bool :=
  c = ' ' || c = ':' || c = '\x7b' || c = '\x7d' || c = '"'

/-- Skip a run of spaces. -/
def skipSp (s : List Char) : List Char := s.dropWhile (· = ' ')

/-- Modelled from the spec: one layer of the recursive-descent token
parser of `token_parser.py` (absent from the sources; §4.5 and the §6
grammar describe it), with the recursive occurrences abstracted into
`rec`.  Reads a sequence of `field: "value"`, `field: true` and
`name { ... }` items up to a closing brace or the end of input, skipping
the spaces the serializer inserts.  Returns the parsed entries and the
unconsumed remainder (which starts with the unconsumed `\x7d` of the
enclosing dictionary, if any). -/
def parseStep (rec : List Char → Option (TokDict × List Char)) (s : List Char) :
    Option (TokDict × List Char) :=
  match skipSp s with
  | [] => some (.nil, [])
  | '\x7d' :: r => some (.nil, '\x7d' :: r)
  | s1 =>
    if (s1.takeWhile (fun c => !specialChar c)).isEmpty then none
    else
      match skipSp (s1.dropWhile (fun c => !specialChar c)) with
      | ':' :: s3 =>
        match skipSp s3 with
        | '"' :: s4 =>
          match s4.dropWhile (· ≠ '"') with
          | '"' :: s5 =>
            (rec s5).map
              (fun p => (.cons (String.mk (s1.takeWhile (fun c => !specialChar c)))
                (.vstr (String.mk (s4.takeWhile (· ≠ '"')))) p.1, p.2))
          | _ => none
        | 't' :: 'r' :: 'u' :: 'e' :: s4 =>
          (rec s4).map
            (fun p => (.cons (String.mk (s1.takeWhile (fun c => !specialChar c)))
              .vbool p.1, p.2))
        | _ => none
      | '\x7b' :: s3 =>
        match rec s3 with
        | some (inner, '\x7d' :: s4) =>
          if inner = .nil then none
          else
            (rec s4).map
              (fun p => (.cons (String.mk (s1.takeWhile (fun c => !specialChar c)))
                (.vdict inner) p.1, p.2))
        | _ => none
      | _ => none

/-- The fuelled token-entry parser: ties the recursive knot of
`parseStep`.  Each recursive call strictly consumes input, so
`parseTagged`'s fuel of `length + 1` always suffices
(`parseEntries_fuel_eq`). -/
def parseEntries : Nat → List Char → Option (TokDict × List Char)
  | 0, _ => none
  | fuel + 1, s => parseStep (parseEntries fuel) s

/-- Concatenate two dictionaries (entry lists). -/
def TokDict.append : TokDict → TokDict → TokDict
  | .nil, d => d
  | .cons k v rest, d => .cons k v (rest.append d)

/-- Regroup the flat list of top-level entries into one singleton
dictionary per entry: the parser returns one `{"tokens": {...}}` dict per
top-level `tokens { ... }` group. -/
def splitTop : TokDict → List TokDict
  | .nil => []
  | .cons k v rest => TokDict.cons k v .nil :: splitTop rest

/-- Modelled from the spec: `TokenParser.parse()` — parse a full tagged
serialization into the list of top-level tokens.  Fails (the Python
parser raises) on malformed input or trailing garbage. -/
def parseTagged (s : List Char) : Option (List TokDict) :=
  match parseEntries (s.length + 1) s with
  | some (d, []) => some (splitTop d)
  | _ => none

/-- ASCII digit (`NEMO_DIGIT`) or Devanagari digit (`NEMO_HI_DIGIT`,
U+0966–U+096F); `graph_utils.py` is absent from the sources, the classes
are modelled from the spec's "between a digit and a letter-block". -/
def isNemoDigit (c : Char) : Bool :=
  ('0' ≤ c && c ≤ '9') || (0x966 ≤ c.toNat && c.toNat ≤ 0x96F)

/-- Member of the Devanagari block: the source builds the right context as
`pynini.union(*[chr(i) for i in range(0x0900, 0x0980)])`. -/
def isHiBlock (c : Char) : Bool :=
  0x900 ≤ c.toNat && c.toNat < 0x980

/-- Left-context test for the hyphen rule (`Option` holds the previous
input character, `none` at the start of the string). -/
def isDigitCtx : Option Char → Bool
  | none => false
  | some c => isNemoDigit c

/-- Right-context test: the next input character is in the Devanagari
block. -/
def isHiHead : List Char → Bool
  | [] => false
  | c :: _ => isHiBlock c

/-- One left-to-right pass of the obligatory rewrite
`pynini.cdrewrite(pynini.cross("-", " "), digit, hi_block, NEMO_SIGMA)`
(`joiner_hyphen_to_space` in the Hindi `ClassifyFst`): every `-` preceded
by a digit and followed by a Devanagari-block character becomes a space;
everything else is copied.  The pattern is one character and neither
context character can be produced or consumed by a replacement, so input-
side context matching coincides with the transducer's behaviour. -/
def hyphenRewriteAux : Option Char → List Char → List Char
  | _, [] => []
  | prev, c :: rest =>
    if c = '-' && isDigitCtx prev && isHiHead rest then
      ' ' :: hyphenRewriteAux (some c) rest
    else
      c :: hyphenRewriteAux (some c) rest

/-- The joiner-hyphen rewrite applied to a whole string. -/
def hyphenRewrite (s : List Char) : List Char :=
  hyphenRewriteAux none s

/-- No position of the string matches the hyphen rule (scanning with the
previous character as left context). -/
def noHyphenMatch : Option Char → List Char → Bool
  | _, [] => true
  | prev, c :: rest =>
    !(c = '-' && isDigitCtx prev && isHiHead rest) && noHyphenMatch (some c) rest

/-- Python `str.strip()` whitespace (the ASCII whitespace characters). -/
def isPyWs (c : Char) : Bool :=
  c = ' ' || c = '\t' || c = '\n' || c = '\r' || c = '\x0b' || c = '\x0c'

/-- Python `text.strip()`: drop leading and trailing whitespace. -/
def pyStrip (s : List Char) : List Char :=
  ((s.dropWhile isPyWs).reverse.dropWhile isPyWs).reverse

/-- `pynini.escape`: prefix `[`, `]` and `\` with a backslash so the text
is read as a literal FST input. -/
def pyEscape : List Char → List Char
  | [] => []
  | c :: rest =>
    if c = '[' || c = ']' || c = '\\' then '\\' :: c :: pyEscape rest
    else c :: pyEscape rest

/-- Replace every run of two or more spaces by one space: the regex
`SPACE_DUP = re.compile(' {2,}')` with `SPACE_DUP.sub(' ', ·)`. -/
def collapseSp : List Char → List Char
  | [] => []
  | ' ' :: ' ' :: rest => collapseSp (' ' :: rest)
  | c :: rest => c :: collapseSp rest

/-- A weighted path lattice, abstracted to its list of accepting paths
(weight, output string); composition order is the FST's internal
enumeration order. -/
abbrev Lattice : Type := List (Nat × List Char)

/-- Fold selecting the first minimum-weight path
(`pynini.shortestpath(lattice, nshortest=1, unique=True)`; ties broken by
the implementation-defined enumeration order, modelled as first-found). -/
def shortestGo (best : Nat × List Char) : Lattice → Nat × List Char
  | [] => best
  | q :: qs => shortestGo (if q.1 < best.1 then q else best) qs

/-- `Normalizer.select_tag` / `Normalizer.select_verbalizer`: the output
string of the minimum-weight path, or `none` when the lattice has no
accepting path (in which case the Python `.string()` call raises
`FstOpError`). -/
def shortestPathStr : Lattice → Option (List Char)
  | [] => none
  | p :: ps => some (shortestGo p ps).2

/-- The two weighted transducers the `Normalizer` composes input with,
abstracted to functions from a string to the lattice of accepting paths
(`find_tags` is `text @ tagger.fst`, `find_verbalizer` is
`tagged_text @ verbalizer.fst`; both are external grammar packs). -/
structure Engine where
  findTags : List Char → Lattice
  verbalize : List Char → Lattice

/-- The inner loop over `tags_reordered` in `Normalizer.normalize`: each
serialized variant is escaped and composed with the verbalizer; the scan
stops at the first variant whose lattice is non-empty.  `none` when no
variant succeeds (in Python: either the `verbalizer_lattice is None`
warning branch, or the `FstOpError` from selecting a path of the last,
empty, lattice — both caught and answered with the fallback text). -/
def firstNonEmptyLat (eng : Engine) : List (List Char) → Option Lattice
  | [] => none
  | v :: vs =>
    let lat := eng.verbalize (pyEscape v)
    if lat.isEmpty then firstNonEmptyLat eng vs else some lat

/-- Verbalization of one chunk: enumerate the serialization variants with
`generate_permutations`, take the first with a non-empty lattice, and
select its minimum-weight path. -/
def chunkOne (eng : Engine) (chunk : List TokDict) : Option (List Char) :=
  match firstNonEmptyLat eng (generatePermutations chunk) with
  | some lat => shortestPathStr lat
  | none => none

/-- A Python exception escaping `normalize`, by raising stage:
`fstOpError` from `select_tag` on an empty classification lattice,
`parseError` from the token parser, `valueError` from the splitting
routine. -/
inductive PyErr where
  | fstOpError
  | parseError
  | valueError
deriving DecidableEq

/-- The `for s in split_tokens` loop of `Normalizer.normalize`: `acc` is
the accumulated `output` string; a chunk failure returns the fallback
text (the stripped, escaped input) from inside the `except` / warning
branches; after the loop `output[1:]` has its duplicate spaces
collapsed. -/
def goChunks (eng : Engine) (fallback : List Char) :
    List (List TokDict) → List Char → Except PyErr (List Char)
  | [], acc => .ok (collapseSp (acc.drop 1))
  | c :: cs, acc =>
    match chunkOne eng c with
    | none => .ok fallback
    | some out => goChunks eng fallback cs (acc ++ ' ' :: out)

/-- `Normalizer.normalize` with `punct_pre_process = False`,
`punct_post_process = False` and no post-processor (logging omitted).
Stages: strip; early return of the empty string; `pynini.escape`;
classification and `select_tag` (an empty lattice raises, uncaught);
parsing (a parser error raises, uncaught); splitting (the bound violation
raises, uncaught); then the per-chunk loop, whose failures alone are
caught and answered with the current `text` (the stripped escaped
input). -/
def normalize (eng : Engine) (M : Nat) (text : List Char) :
    Except PyErr (List Char) :=
  let t := pyStrip text
  if t.isEmpty then .ok t
  else
    let e := pyEscape t
    match shortestPathStr (eng.findTags e) with
    | none => .error .fstOpError
    | some tagged =>
      match parseTagged tagged with
      | none => .error .parseError
      | some tokens =>
        match splitTokens M tokens with
        | .error _ => .error .valueError
        | .ok chunks => goChunks eng e chunks []

/-- Chunk outputs joined by single spaces (the shape the final
`SPACE_DUP` collapse produces from `' ' + out₀ + ' ' + out₁ + ...` after
dropping the leading space). -/
def spaceJoin : List (List Char) → List Char
  | [] => []
  | [o] => o
  | o :: os => o ++ ' ' :: spaceJoin os

/-- The nested-dictionary children of a dictionary, in entry order (used
to state the spec's permutation-estimate formula
`perm(t) = factorial(k) × Π perm(child_i)`). -/
def childDicts (d : TokDict) : List TokDict :=
  d.toList.filterMap (fun e =>
    match e.2 with
    | .vdict inner => some inner
    | _ => none)

/-! ### Concrete token trees used in counterexamples and witnesses -/

/-- The date token from the docstring of
`_split_tokens_to_reduce_number_of_permutations`:
`{"tokens": {"date": {"year": ..., "month": ..., "day": ...}}}`. -/
def dateToken : TokDict :=
  .cons "tokens" (.vdict (.cons "date" (.vdict
    (.cons "year" (.vstr "twenty eighteen")
      (.cons "month" (.vstr "december")
        (.cons "day" (.vstr "thirty one") .nil)))) .nil)) .nil

/-- A second date token (the january one from the docstring). -/
def dateToken2 : TokDict :=
  .cons "tokens" (.vdict (.cons "date" (.vdict
    (.cons "year" (.vstr "twenty eighteen")
      (.cons "month" (.vstr "january")
        (.cons "day" (.vstr "eight") .nil)))) .nil)) .nil

/-- A token group carrying the `preserve_order` flag plus two ordinary
fields. -/
def poToken : TokDict :=
  .cons "preserve_order" .vbool
    (.cons "a" (.vstr "x") (.cons "b" (.vstr "y") .nil))

/-- A two-field token group (estimate `2! = 2`). -/
def smallToken : TokDict :=
  .cons "tokens" (.vdict (.cons "a" (.vstr "x") (.cons "b" (.vstr "y") .nil))) .nil

/-- An engine whose tagger and verbalizer lattices are always empty. -/
def engNone : Engine := { findTags := fun _ => [], verbalize := fun _ => [] }

/-- A fixed parseable tagged serialization used by witness engines. -/
def tinyTagged : List Char := serializeTokens [smallToken]

/-- An engine that tags everything as `tinyTagged` and never verbalizes. -/
def engNoVerb : Engine :=
  { findTags := fun _ => [(1, tinyTagged)], verbalize := fun _ => [] }

/-- An engine whose verbalizer accepts everything with output `"ok"`. -/
def engConst : Engine :=
  { findTags := fun _ => [], verbalize := fun _ => [(0, ("ok").data)] }

/-! ### Well-formedness of token trees (what the parser can produce) -/

/-- A usable field name: non-empty and free of the structural characters
the parser stops an identifier at. -/
def goodKey (k : String) : Bool :=
  !k.data.isEmpty && k.data.all (fun c => !specialChar c)

/-- A usable string value: free of the quote character that terminates
it. -/
def goodStr (v : String) : Bool := v.data.all (fun c => !(c = '"'))

mutual
/-- Well-formedness of a value: string values quote-free and nested
dictionaries non-empty (the grammar's `field_or_nested+`) and
well-formed. -/
def TokVal.wf : TokVal → Bool
  | .vstr v => goodStr v
  | .vbool => true
  | .vdict d =>
    (match d with
     | .nil => false
     | .cons _ _ _ => true) && d.wfEntries

/-- Well-formedness of every entry of a dictionary. -/
def TokDict.wfEntries : TokDict → Bool
  | .nil => true
  | .cons k v rest => goodKey k && v.wf && rest.wfEntries
end

/-- A top-level token as produced by the parser: a singleton dictionary
with a well-formed entry. -/
def wfToken : TokDict → Bool
  | .cons k v .nil => goodKey k && v.wf
  | _ => false

/-- Fold of the top-level tokens into one flat entry list (inverse of
`splitTop`). -/
def flatTokens : List TokDict → TokDict
  | [] => .nil
  | t :: ts => t.append (flatTokens ts)

/-! ### Helper lemmas about the splitting routine -/

theorem chunkProd_append_one (l : List TokDict) (t : TokDict) :
    chunkProd (l ++ [t]) = chunkProd l * t.estimate := by
  simp [chunkProd, List.foldl_append]

theorem chunkProd_single (t : TokDict) : chunkProd [t] = t.estimate := by
  simp [chunkProd]

theorem splitGo_partition (M : Nat) :
    ∀ (rest chunk : List TokDict) (cur : Nat),
      cur = chunkProd chunk → cur ≤ M →
      (∀ t ∈ rest, t.estimate ≤ M) →
      ∃ chunks, splitGo M chunk cur rest = .ok chunks ∧
        chunks.flatten = chunk ++ rest ∧
        ∀ c ∈ chunks, chunkProd c ≤ M := by
  intro rest
  induction rest with
  | nil =>
    intro chunk cur hcur hle _
    exact ⟨[chunk], rfl, by simp, by simpa [hcur] using hle⟩
  | cons t ts ih =>
    intro chunk cur hcur hle hall
    have hT : t.estimate ≤ M := hall t (by simp)
    have hts : ∀ u ∈ ts, u.estimate ≤ M := fun u hu => hall u (by simp [hu])
    by_cases hbig : t.estimate * cur > M
    · have hnot : ¬ t.estimate > M := by omega
      obtain ⟨chunks, hok, hflat, hbound⟩ :=
        ih [t] t.estimate (by simp [chunkProd_single]) hT hts
      refine ⟨chunk :: chunks, ?_, ?_, ?_⟩
      · simp only [splitGo, if_pos hbig, if_neg hnot, hok, Except.map]
      · simp [hflat]
      · intro c hc
        rcases List.mem_cons.mp hc with hc | hc
        · simpa [hc, ← hcur] using hle
        · exact hbound c hc
    · have hnot : ¬ t.estimate > M := by omega
      have hle2 : cur * t.estimate ≤ M := by
        rw [Nat.mul_comm]
        exact Nat.not_lt.mp hbig
      obtain ⟨chunks, hok, hflat, hbound⟩ :=
        ih (chunk ++ [t]) (cur * t.estimate)
          (by rw [chunkProd_append_one, hcur]) hle2 hts
      refine ⟨chunks, ?_, ?_, hbound⟩
      · simp only [splitGo, if_neg hbig, if_neg hnot, hok]
      · simp [hflat]

theorem splitGo_err (M : Nat) :
    ∀ (rest chunk : List TokDict) (cur : Nat),
      (∃ t ∈ rest, M < t.estimate) →
      splitGo M chunk cur rest = .error .permutationBoundExceeded := by
  intro rest
  induction rest with
  | nil => intro chunk cur h; obtain ⟨t, ht, _⟩ := h; cases ht
  | cons t ts ih =>
    intro chunk cur h
    by_cases hT : M < t.estimate
    · by_cases hbig : t.estimate * cur > M
      · simp only [splitGo, if_pos hbig, if_pos hT]
      · simp only [splitGo, if_neg hbig, if_pos hT]
    · obtain ⟨u, hu, hMu⟩ := h
      have hu' : u ∈ ts := by
        rcases List.mem_cons.mp hu with hu | hu
        · exact absurd (hu ▸ hMu) hT
        · exact hu
      by_cases hbig : t.estimate * cur > M
      · simp only [splitGo, if_pos hbig, if_neg hT, ih [t] t.estimate ⟨u, hu', hMu⟩,
          Except.map]
      · simp only [splitGo, if_neg hbig, if_neg hT, ih (chunk ++ [t]) (cur * t.estimate)
          ⟨u, hu', hMu⟩]

theorem splitGo_ok_ne_nil (M : Nat) :
    ∀ (rest chunk : List TokDict) (cur : Nat) (chunks : List (List TokDict)),
      splitGo M chunk cur rest = .ok chunks → chunks ≠ [] := by
  intro rest
  induction rest with
  | nil =>
    intro chunk cur chunks h
    simp only [splitGo] at h
    cases h
    simp
  | cons t ts ih =>
    intro chunk cur chunks h
    simp only [splitGo] at h
    split at h
    · split at h
      · cases h
      · cases hrec : splitGo M [t] t.estimate ts with
        | error e => rw [hrec] at h; cases h
        | ok cs => rw [hrec] at h; cases h; simp
    · split at h
      · cases h
      · exact ih _ _ _ h

/-- The recursive child product of the source equals the product of the
estimates of the nested-dictionary children extracted in entry order. -/
theorem prodChildren_eq_childDicts :
    (d : TokDict) → d.prodChildren = ((childDicts d).map TokDict.estimate).prod
  | .nil => rfl
  | .cons k v rest => by
    cases v with
    | vstr s =>
      simp only [TokDict.prodChildren, TokVal.childFactor, childDicts, TokDict.toList,
        List.filterMap_cons, Nat.one_mul]
      exact prodChildren_eq_childDicts rest
    | vbool =>
      simp only [TokDict.prodChildren, TokVal.childFactor, childDicts, TokDict.toList,
        List.filterMap_cons, Nat.one_mul]
      exact prodChildren_eq_childDicts rest
    | vdict inner =>
      simp only [TokDict.prodChildren, TokVal.childFactor, childDicts, TokDict.toList,
        List.filterMap_cons, List.map_cons, List.prod_cons, TokDict.estimate]
      rw [prodChildren_eq_childDicts rest]
      rfl

/-! ### C2: split-coverage invariant -/

/-- C2, counterexample.  The claim quantifies over every token sequence
whose individual estimates are all at most `M`; for the empty sequence
and `M = 0` that hypothesis holds vacuously, yet the code returns the
single empty chunk `[[]]`, whose (empty) estimate product is `1 > 0`.
So the claim as stated fails. -/
theorem c2_counterexample :
    (∀ t ∈ ([] : List TokDict), t.estimate ≤ 0) ∧
    splitTokens 0 [] = .ok [[]] ∧
    ¬ (∀ c ∈ [([] : List TokDict)], chunkProd c ≤ 0) := by
  refine ⟨by simp, rfl, ?_⟩
  intro h
  have := h [] (by simp)
  simp [chunkProd] at this

/-- C2, amended: for every token sequence in which each single token's
estimated permutation count is at most the bound `M`, and provided
`M ≥ 1` (ruling out the degenerate empty-sequence/`M = 0` case of the
counterexample), `_split_tokens_to_reduce_number_of_permutations`
returns an ordered list of chunks whose in-order concatenation is
exactly the input sequence, and the product of the estimates of the
tokens of each chunk is at most `M`. -/
theorem c2_split_coverage (M : Nat) (tokens : List TokDict)
    (hM : 1 ≤ M) (h : ∀ t ∈ tokens, t.estimate ≤ M) :
    ∃ chunks, splitTokens M tokens = .ok chunks ∧
      chunks.flatten = tokens ∧
      ∀ c ∈ chunks, chunkProd c ≤ M := by
  have := splitGo_partition M tokens [] 1 (by simp [chunkProd]) hM h
  simpa [splitTokens] using this

/-- C2, witness: the amended theorem applied to the two-date example with
`M = 36`. -/
theorem c2_witness :
    ∃ chunks, splitTokens 36 [dateToken, dateToken2] = .ok chunks ∧
      chunks.flatten = [dateToken, dateToken2] ∧
      ∀ c ∈ chunks, chunkProd c ≤ 36 :=
  c2_split_coverage 36 [dateToken, dateToken2] (by decide) (by decide)

/-! ### C3: the permutation estimate -/

/-- C3, counterexample: a token group carrying the `preserve_order` flag
(`poToken`) has estimate `3! = 6`, not `1`:
`_estimate_number_of_permutations_in_nested_dict` never looks at
`PRESERVE_ORDER_KEY`, and even counts the flag entry itself in
`factorial(len(token_group))`. -/
theorem c3_counterexample :
    poToken.hasKey preserveOrderKey = true ∧
    poToken.estimate = 6 ∧ poToken.estimate ≠ 1 := by
  refine ⟨rfl, rfl, by decide⟩

/-- C3, amended: for every token group `t`, the estimated permutation
count is `factorial(k) × Π perm(child_i)` where `k` counts all top-level
entries of `t` (including a `preserve_order` entry when present) and the
product ranges over the nested-dictionary children; the estimate does not
special-case the `preserve_order` flag, so it is not `1` for such tokens
(it only upper-bounds the single serialization `_permute` emits for
them). -/
theorem c3_estimate_formula (d : TokDict) :
    d.estimate = Nat.factorial d.length * ((childDicts d).map TokDict.estimate).prod := by
  rw [TokDict.estimate, prodChildren_eq_childDicts, Nat.mul_comm]

/-! ### C4: bound violation -/

/-- C4: whenever a token sequence contains a single token whose own
estimate exceeds the bound `M`, the splitting routine raises the
bound-exceeded configuration error (`ValueError` in the source, the
spec's `PermutationBoundExceeded`) rather than degrading, regardless of
the other tokens. -/
theorem c4_bound_violation (M : Nat) (tokens : List TokDict) (t : TokDict)
    (hmem : t ∈ tokens) (hbig : M < t.estimate) :
    splitTokens M tokens = .error .permutationBoundExceeded :=
  splitGo_err M tokens [] 1 ⟨t, hmem, hbig⟩

/-- C4, witness: a single three-field date token (estimate 6) with bound
`M = 1`. -/
theorem c4_witness :
    splitTokens 1 [dateToken] = .error .permutationBoundExceeded :=
  c4_bound_violation 1 [dateToken] dateToken (by decide) (by decide)

/-! ### C6: the worked two-date example -/

/-- C6: two date tokens with three orderable fields each (estimate
`3! = 6` each) and bound `M = 6` are split into exactly two singleton
chunks, never one chunk of two. -/
theorem c6_two_dates_split :
    dateToken.estimate = 6 ∧ dateToken2.estimate = 6 ∧
    splitTokens 6 [dateToken, dateToken2] = .ok [[dateToken], [dateToken2]] :=
  ⟨rfl, rfl, rfl⟩

/-! ### Helper lemmas about shortest-path selection -/

theorem shortestGo_mem (l : Lattice) :
    ∀ best, shortestGo best l = best ∨ shortestGo best l ∈ l := by
  induction l with
  | nil => intro best; left; rfl
  | cons q qs ih =>
    intro best
    simp only [shortestGo]
    by_cases h : q.1 < best.1
    · rw [if_pos h]
      rcases ih q with h2 | h2
      · right; rw [h2]; simp
      · right; simp [h2]
    · rw [if_neg h]
      rcases ih best with h2 | h2
      · left; exact h2
      · right; simp [h2]

theorem shortestGo_le_best (l : Lattice) :
    ∀ best, (shortestGo best l).1 ≤ best.1 := by
  induction l with
  | nil => intro best; exact le_refl _
  | cons q qs ih =>
    intro best
    simp only [shortestGo]
    by_cases h : q.1 < best.1
    · rw [if_pos h]
      exact le_trans (ih q) (Nat.le_of_lt h)
    · rw [if_neg h]
      exact ih best

theorem shortestGo_le_mem (l : Lattice) :
    ∀ best q, q ∈ l → (shortestGo best l).1 ≤ q.1 := by
  induction l with
  | nil => intro best q hq; cases hq
  | cons p ps ih =>
    intro best q hq
    rcases List.mem_cons.mp hq with hq | hq
    · subst hq
      simp only [shortestGo]
      by_cases h : q.1 < best.1
      · rw [if_pos h]; exact shortestGo_le_best ps q
      · rw [if_neg h]
        exact le_trans (shortestGo_le_best ps best) (Nat.not_lt.mp h)
    · simp only [shortestGo]
      split
      · exact ih p q hq
      · exact ih best q hq

/-! ### C7: weight-monotonic preference -/

/-- C7, counterexample.  With a lattice containing a third, cheaper
candidate `(1, "c")`, the taggings `A = (5, "a")` and `B = (7, "b")` are
both present with `weight(A) < weight(B)`, yet `select_tag` does not
return A's decoding: the claim's universally quantified "returns A's
decoding" fails. -/
theorem c7_counterexample :
    ((5, ("a").data) ∈ ([(1, ("c").data), (5, ("a").data), (7, ("b").data)] : Lattice) ∧
     (7, ("b").data) ∈ ([(1, ("c").data), (5, ("a").data), (7, ("b").data)] : Lattice) ∧
     (5 : Nat) < 7) ∧
    shortestPathStr [(1, ("c").data), (5, ("a").data), (7, ("b").data)] ≠
      some (("a").data) := by
  refine ⟨⟨by decide, by decide, by decide⟩, by decide⟩

/-- C7, amended: `select_tag` (shortest-path extraction) returns the
decoding of a minimum-weight candidate of the lattice.  Hence, for any
two candidates A and B with `weight(A) < weight(B)`: some candidate at
weight ≤ weight(A) is decoded; B's decoding is never returned provided no
candidate shares B's decoding at a smaller weight; and A's decoding is
returned whenever A is the unique minimum-weight candidate — but not in
general when a cheaper candidate than A exists. -/
theorem c7_weight_monotonic (lat : Lattice) (A B : Nat × List Char)
    (hA : A ∈ lat) (hB : B ∈ lat) (hlt : A.1 < B.1) :
    (∃ C, (C ∈ lat ∧ C.1 ≤ A.1) ∧ shortestPathStr lat = some C.2) ∧
    ((∀ C ∈ lat, C.2 = B.2 → B.1 ≤ C.1) → shortestPathStr lat ≠ some B.2) ∧
    ((∀ C ∈ lat, C ≠ A → A.1 < C.1) → shortestPathStr lat = some A.2) := by
  obtain ⟨p, ps, rfl⟩ : ∃ p ps, lat = p :: ps := by
    cases lat with
    | nil => cases hA
    | cons p ps => exact ⟨p, ps, rfl⟩
  set m := shortestGo p ps with hm
  have hmem : m ∈ p :: ps := by
    rcases shortestGo_mem ps p with h | h
    · rw [hm, h]; simp
    · rw [hm]; simp [h]
  have hminA : m.1 ≤ A.1 := by
    rcases List.mem_cons.mp hA with h | h
    · rw [h]; exact shortestGo_le_best ps p
    · exact shortestGo_le_mem ps p A h
  have hsel : shortestPathStr (p :: ps) = some m.2 := rfl
  refine ⟨⟨m, ⟨hmem, hminA⟩, hsel⟩, ?_, ?_⟩
  · intro hcheap heq
    rw [hsel] at heq
    have hm2 : m.2 = B.2 := by injection heq
    have := hcheap m hmem hm2
    omega
  · intro huniq
    by_cases hmA : m = A
    · rw [hsel, hmA]
    · have := huniq m hmem hmA
      omega

/-- C7, witness for the amended theorem at a two-candidate lattice: the
cheaper tagging's decoding is selected. -/
theorem c7_witness :
    shortestPathStr [(5, ("a").data), (7, ("b").data)] = some (("a").data) :=
  (c7_weight_monotonic [(5, ("a").data), (7, ("b").data)]
      (5, ("a").data) (7, ("b").data) (by decide) (by decide) (by decide)).2.2
    (by decide)

/-! ### C10: whitespace-only input -/

/-- C10: on any input made only of whitespace characters (the empty
string included), `normalize` with `punct_pre_process=False` returns the
empty (stripped) string — and does so for every engine, i.e. without
consulting the classifier or verbalizer. -/
theorem c10_whitespace_input (eng : Engine) (M : Nat) (s : List Char)
    (h : ∀ c ∈ s, isPyWs c = true) :
    normalize eng M s = .ok [] := by
  have hstrip : pyStrip s = [] := by
    have hd : s.dropWhile isPyWs = [] := List.dropWhile_eq_nil_iff.mpr h
    simp [pyStrip, hd]
  simp [normalize, hstrip]

/-- C10, witness: two spaces and a tab normalize to the empty string under
the all-empty engine. -/
theorem c10_witness : normalize engNone 729 (("  \t").data) = .ok [] :=
  c10_whitespace_input engNone 729 (("  \t").data) (by decide)

/-! ### C1: totality and fallback of normalize -/

/-- C1, counterexample.  On input `"a"` under an engine whose
classification lattice is empty, `normalize` does not return the input
with a warning: `select_tag` is called outside any `try`, and
`pynini.shortestpath(...).string()` on an empty lattice raises
`FstOpError`, which propagates to the caller (modelled as
`Except.error`).  So "normalize never propagates an exception and
returns the original input on any internal stage failure" fails. -/
theorem c1_counterexample :
    normalize engNone 729 (("a").data) = .error .fstOpError := rfl

theorem firstNonEmptyLat_of_all_empty (eng : Engine)
    (hver : ∀ v, eng.verbalize v = []) :
    ∀ vs, firstNonEmptyLat eng vs = none := by
  intro vs
  induction vs with
  | nil => rfl
  | cons v vs ih => simp only [firstNonEmptyLat, hver, List.isEmpty_nil, if_pos, ih]

/-- C1, amended: only failures inside the per-chunk
permutation/verbalization loop are caught by `normalize`; in that case it
returns the stripped, `pynini.escape`d input text (with a logged
warning), which need not equal the original input character for
character.  Failures of classification (empty lattice), parsing, or
splitting propagate an exception to the caller (see the
counterexample). -/
theorem c1_fallback (eng : Engine) (M : Nat) (text : List Char)
    (tagged : List Char) (tokens : List TokDict) (chunks : List (List TokDict))
    (hne : pyStrip text ≠ [])
    (htag : shortestPathStr (eng.findTags (pyEscape (pyStrip text))) = some tagged)
    (hparse : parseTagged tagged = some tokens)
    (hsplit : splitTokens M tokens = .ok chunks)
    (hver : ∀ v, eng.verbalize v = []) :
    normalize eng M text = .ok (pyEscape (pyStrip text)) := by
  have hempty : (pyStrip text).isEmpty = false := by
    cases hpt : pyStrip text with
    | nil => exact absurd hpt hne
    | cons c cs => rfl
  obtain ⟨c, cs, hcc⟩ : ∃ c cs, chunks = c :: cs := by
    cases hchunks : chunks with
    | nil => exact absurd (hchunks ▸ hsplit) (fun hh =>
        splitGo_ok_ne_nil M tokens [] 1 [] hh rfl)
    | cons c cs => exact ⟨c, cs, rfl⟩
  have hchunk : chunkOne eng c = none := by
    simp [chunkOne, firstNonEmptyLat_of_all_empty eng hver]
  simp only [normalize, hempty, Bool.false_eq_true, if_false, htag, hparse, hsplit,
    hcc, goChunks, hchunk]

/-- C1, witness for the amended theorem: with classification and parsing
succeeding but every verbalization lattice empty, input `"hi"` comes back
unchanged (here stripping and escaping are the identity). -/
theorem c1_witness : normalize engNoVerb 729 (("hi").data) = .ok (("hi").data) :=
  c1_fallback engNoVerb 729 (("hi").data) tinyTagged [smallToken] [[smallToken]]
    (by decide) rfl rfl rfl (fun _ => rfl)

/-! ### Helper lemmas for per-chunk verbalization -/

theorem shortest_min (lat : Lattice) (hne : lat ≠ []) :
    ∃ c, c ∈ lat ∧ (∀ q ∈ lat, c.1 ≤ q.1) ∧ shortestPathStr lat = some c.2 := by
  obtain ⟨p, ps, rfl⟩ : ∃ p ps, lat = p :: ps := by
    cases lat with
    | nil => exact absurd rfl hne
    | cons p ps => exact ⟨p, ps, rfl⟩
  refine ⟨shortestGo p ps, ?_, ?_, rfl⟩
  · rcases shortestGo_mem ps p with h | h
    · rw [h]; simp
    · simp [h]
  · intro q hq
    rcases List.mem_cons.mp hq with hq | hq
    · rw [hq]; exact shortestGo_le_best ps p
    · exact shortestGo_le_mem ps p q hq

theorem firstNonEmptyLat_spec (eng : Engine) :
    ∀ (vs : List (List Char)) (i : Nat) (h1 : i < vs.length),
      eng.verbalize (pyEscape vs[i]) ≠ [] →
      (∀ j (hj : j < vs.length), j < i → eng.verbalize (pyEscape vs[j]) = []) →
      firstNonEmptyLat eng vs = some (eng.verbalize (pyEscape vs[i])) := by
  intro vs
  induction vs with
  | nil => intro i h1; cases h1
  | cons v vs ih =>
    intro i h1 h2 h3
    cases i with
    | zero =>
      simp only [List.getElem_cons_zero] at h2 ⊢
      have : (eng.verbalize (pyEscape v)).isEmpty = false :=
        List.isEmpty_eq_false.mpr h2
      simp only [firstNonEmptyLat, this, Bool.false_eq_true, if_false]
    | succ k =>
      have h0 : eng.verbalize (pyEscape v) = [] := by
        have := h3 0 (by simp) (Nat.succ_pos k)
        simpa using this
      have hk : k < vs.length := Nat.lt_of_succ_lt_succ h1
      simp only [List.getElem_cons_succ] at h2 ⊢
      rw [firstNonEmptyLat, h0]
      simp only [List.isEmpty_nil, if_pos]
      exact ih k hk h2 (fun j hj hjk => by
        have := h3 (j + 1) (by simpa using Nat.succ_lt_succ hj) (Nat.succ_lt_succ hjk)
        simpa using this)

theorem flatten_spaced :
    ∀ outs : List (List Char),
      ((outs.map (fun o => ' ' :: o)).flatten).drop 1 = spaceJoin outs := by
  intro outs
  induction outs with
  | nil => rfl
  | cons o os ih =>
    cases os with
    | nil => simp [spaceJoin]
    | cons o2 os' =>
      have ih' : o2 ++ (List.map (fun o => ' ' :: o) os').flatten =
          spaceJoin (o2 :: os') := by
        simpa using ih
      simp only [List.map_cons, List.flatten_cons, List.cons_append,
        List.drop_succ_cons, List.drop_zero, spaceJoin]
      rw [ih']

theorem goChunks_all_ok (eng : Engine) (fb : List Char) :
    ∀ (chunks : List (List TokDict)) (outs : List (List Char)) (acc : List Char),
      chunks.length = outs.length →
      (∀ k (hk : k < chunks.length) (hk2 : k < outs.length),
        chunkOne eng chunks[k] = some outs[k]) →
      goChunks eng fb chunks acc =
        .ok (collapseSp ((acc ++ (outs.map (fun o => ' ' :: o)).flatten).drop 1)) := by
  intro chunks
  induction chunks with
  | nil =>
    intro outs acc hlen _
    have houts : outs = [] := by
      cases outs with
      | nil => rfl
      | cons _ _ => simp at hlen
    subst houts
    simp [goChunks]
  | cons c cs ih =>
    intro outs acc hlen hpt
    obtain ⟨o, os, rfl⟩ : ∃ o os, outs = o :: os := by
      cases outs with
      | nil => simp at hlen
      | cons o os => exact ⟨o, os, rfl⟩
    have h0 : chunkOne eng c = some o := by
      have := hpt 0 (by simp) (by simp)
      simpa using this
    have hlen' : cs.length = os.length := by simpa using hlen
    have hpt' : ∀ k (hk : k < cs.length) (hk2 : k < os.length),
        chunkOne eng cs[k] = some os[k] := by
      intro k hk hk2
      have := hpt (k + 1) (by simpa using Nat.succ_lt_succ hk)
        (by simpa using Nat.succ_lt_succ hk2)
      simpa using this
    simp only [goChunks, h0]
    rw [ih os (acc ++ ' ' :: o) hlen' hpt']
    simp

/-! ### C5: deterministic enumeration, first-success, concatenation -/

/-- C5: the serialization variants of a chunk are the fixed, deterministic
enumeration `generatePermutations` (the source's
`generate_permutations`, options of earlier tokens and fields varying
slowest); they are tried in that order and the first variant whose
verbalizer lattice is non-empty is accepted, its minimum-weight path
becoming the chunk output; and chunk outputs are concatenated with single
spaces with every run of several spaces collapsed to one
(`SPACE_DUP.sub(' ', output[1:])`). -/
theorem c5_first_success (eng : Engine) (chunk : List TokDict) (i : Nat)
    (h1 : i < (generatePermutations chunk).length)
    (h2 : eng.verbalize (pyEscape (generatePermutations chunk)[i]) ≠ [])
    (h3 : ∀ j (hj : j < (generatePermutations chunk).length), j < i →
      eng.verbalize (pyEscape (generatePermutations chunk)[j]) = []) :
    (∃ c, c ∈ eng.verbalize (pyEscape (generatePermutations chunk)[i]) ∧
      (∀ q ∈ eng.verbalize (pyEscape (generatePermutations chunk)[i]), c.1 ≤ q.1) ∧
      chunkOne eng chunk = some c.2) ∧
    (∀ (fb : List Char) (chunks : List (List TokDict)) (outs : List (List Char)),
      chunks.length = outs.length →
      (∀ k (hk : k < chunks.length) (hk2 : k < outs.length),
        chunkOne eng chunks[k] = some outs[k]) →
      goChunks eng fb chunks [] = .ok (collapseSp (spaceJoin outs))) := by
  constructor
  · have hfst := firstNonEmptyLat_spec eng (generatePermutations chunk) i h1 h2 h3
    obtain ⟨c, hmem, hmin, hsel⟩ :=
      shortest_min (eng.verbalize (pyEscape (generatePermutations chunk)[i])) h2
    refine ⟨c, hmem, hmin, ?_⟩
    simp only [chunkOne, hfst]
    exact hsel
  · intro fb chunks outs hlen hpt
    rw [goChunks_all_ok eng fb chunks outs [] hlen hpt]
    rw [List.nil_append]
    rw [flatten_spaced]

/-- C5, witness: a one-token chunk whose single variant verbalizes to
`"ok"` under a constant engine; the chunk output is the minimum-weight
path, and a two-chunk output list is joined with one space. -/
theorem c5_witness :
    (∃ c, c ∈ engConst.verbalize
        (pyEscape (generatePermutations [smallToken])[0]) ∧
      (∀ q ∈ engConst.verbalize
        (pyEscape (generatePermutations [smallToken])[0]), c.1 ≤ q.1) ∧
      chunkOne engConst [smallToken] = some c.2) ∧
    goChunks engConst [] [[smallToken], [smallToken]] [] =
      .ok (collapseSp (spaceJoin [("ok").data, ("ok").data])) := by
  have h := c5_first_success engConst [smallToken] 0 (by decide)
    (by intro h; cases h) (by intro j hj hj0; cases hj0)
  refine ⟨h.1, ?_⟩
  refine h.2 [] [[smallToken], [smallToken]] [("ok").data, ("ok").data] rfl ?_
  intro k hk hk2
  match k, hk with
  | 0, _ => rfl
  | 1, _ => rfl

/-! ### C8: the joiner-hyphen rewrite rule -/

theorem hyphenRewriteAux_id :
    ∀ (s : List Char) (prev : Option Char), noHyphenMatch prev s = true →
      hyphenRewriteAux prev s = s := by
  intro s
  induction s with
  | nil => intro prev _; rfl
  | cons c rest ih =>
    intro prev h
    rw [noHyphenMatch, Bool.and_eq_true] at h
    obtain ⟨h1, h2⟩ := h
    rw [hyphenRewriteAux]
    rw [Bool.not_eq_eq_eq_not, Bool.not_true] at h1
    rw [h1]
    simp only [Bool.false_eq_true, if_false]
    rw [ih (some c) h2]

/-- C8: the pre-classification rewrite turning `-` into a space applies
exactly between a digit and a following Devanagari letter-block
character and is the identity elsewhere: `"3.14-X"` with `X` in the
letter block becomes `"3.14 X"`, `"3.14-2"` (a digit on both sides) is
untouched, and any string without a digit/hyphen/letter-block occurrence
is returned unchanged. -/
theorem c8_hyphen_rule :
    (∀ x : Char, isHiBlock x = true →
      hyphenRewrite (("3.14-").data ++ [x]) = ("3.14 ").data ++ [x]) ∧
    hyphenRewrite (("3.14-2").data) = ("3.14-2").data ∧
    (∀ s : List Char, noHyphenMatch none s = true → hyphenRewrite s = s) := by
  refine ⟨?_, by decide, fun s h => hyphenRewriteAux_id s none h⟩
  intro x hx
  simp [hyphenRewrite, hyphenRewriteAux, isDigitCtx, isNemoDigit, isHiHead, hx]

/-- C8, witness: the rule applied with `X = क` (U+0915), and the identity
conjunct applied to a plain Latin string. -/
theorem c8_witness :
    hyphenRewrite (("3.14-").data ++ ['क']) = ("3.14 ").data ++ ['क'] ∧
    hyphenRewrite (("abc-5").data) = ("abc-5").data :=
  ⟨c8_hyphen_rule.1 'क' (by decide),
   c8_hyphen_rule.2.2 (("abc-5").data) (by decide)⟩

/-! ### List helper lemmas for the parser proofs -/

theorem takeWhile_append_all (p : Char → Bool) (l r : List Char)
    (h : ∀ c ∈ l, p c = true) :
    (l ++ r).takeWhile p = l ++ r.takeWhile p := by
  induction l with
  | nil => simp
  | cons c cs ih =>
    simp only [List.cons_append, List.takeWhile_cons, h c (by simp)]
    rw [ih (fun c hc => h c (by simp [hc]))]
    simp

theorem dropWhile_append_all (p : Char → Bool) (l r : List Char)
    (h : ∀ c ∈ l, p c = true) :
    (l ++ r).dropWhile p = r.dropWhile p := by
  induction l with
  | nil => simp
  | cons c cs ih =>
    simp only [List.cons_append, List.dropWhile_cons, h c (by simp)]
    simp only [if_pos]
    exact ih (fun c hc => h c (by simp [hc]))

theorem takeWhile_cons_false (p : Char → Bool) (c : Char) (l : List Char)
    (h : p c = false) : (c :: l).takeWhile p = [] := by
  simp [List.takeWhile_cons, h]

theorem dropWhile_cons_false (p : Char → Bool) (c : Char) (l : List Char)
    (h : p c = false) : (c :: l).dropWhile p = c :: l := by
  simp [List.dropWhile_cons, h]

theorem skipSp_cons_space (s : List Char) : skipSp (' ' :: s) = skipSp s := by
  simp [skipSp, List.dropWhile_cons]

theorem skipSp_cons_other (c : Char) (s : List Char) (h : (c = ' ') = False) :
    skipSp (c :: s) = c :: s := by
  simp [skipSp, List.dropWhile_cons, h]

/-! ### Fuel lemmas for the parser -/

theorem parseStep_mono (rec rec' : List Char → Option (TokDict × List Char))
    (hrec : ∀ t y, rec t = some y → rec' t = some y) :
    ∀ s y, parseStep rec s = some y → parseStep rec' s = some y := by
  intro s y h
  simp only [parseStep] at h ⊢
  split at h
  · exact h
  · exact h
  · split at h
    · exact Option.noConfusion h
    next hid =>
      rw [if_neg hid]
      split at h
      · split at h
        · -- string-value entry
          split at h
          · obtain ⟨p, hp, hfx⟩ := Option.map_eq_some'.mp h
            rw [hrec _ _ hp]
            simpa using hfx
          · exact Option.noConfusion h
        · -- boolean entry
          obtain ⟨p, hp, hfx⟩ := Option.map_eq_some'.mp h
          rw [hrec _ _ hp]
          simpa using hfx
        · exact Option.noConfusion h
      · -- nested-dictionary entry
        split at h
        next inner s4 heq =>
          rw [hrec _ _ heq]
          split at h
          · exact Option.noConfusion h
          next hinner =>
            obtain ⟨p, hp, hfx⟩ := Option.map_eq_some'.mp h
            split
            next inner2 s42 heq2 =>
              injection heq2 with hinj
              injection hinj with h1 h2
              injection h2 with h2a h2b
              subst h1
              subst h2b
              rw [if_neg hinner, hrec _ _ hp]
              simpa using hfx
            next hno2 =>
              exact absurd rfl (hno2 inner s4)
        next hno =>
          exact Option.noConfusion h
      · exact Option.noConfusion h

theorem parseEntries_mono :
    ∀ (f : Nat) (s : List Char) (y : TokDict × List Char),
      parseEntries f s = some y → parseEntries (f + 1) s = some y := by
  intro f
  induction f with
  | zero => intro s y h; exact Option.noConfusion h
  | succ n ih =>
    intro s y h
    rw [parseEntries] at h ⊢
    exact parseStep_mono (parseEntries n) (parseEntries (n + 1)) ih s y h

theorem length_dropWhile_le (p : Char → Bool) (l : List Char) :
    (l.dropWhile p).length ≤ l.length := by
  induction l with
  | nil => simp
  | cons c cs ih =>
    rw [List.dropWhile_cons]
    split
    · exact Nat.le_trans ih (by simp)
    · simp

theorem parseStep_rem (rec : List Char → Option (TokDict × List Char))
    (hrec : ∀ t y, rec t = some y → y.2.length ≤ t.length) :
    ∀ s y, parseStep rec s = some y → y.2.length ≤ s.length := by
  intro s y h
  have hA : (skipSp s).length ≤ s.length := length_dropWhile_le _ s
  have hB : ((skipSp s).dropWhile (fun c => !specialChar c)).length ≤ (skipSp s).length :=
    length_dropWhile_le _ _
  simp only [parseStep] at h
  split at h
  · cases h; simp
  next r heq =>
    cases h
    have := congrArg List.length heq
    simp only [List.length_cons] at this ⊢
    omega
  · split at h
    · exact Option.noConfusion h
    next hid =>
      split at h
      next s3 heq3 =>
        have h3 : s3.length < (skipSp s).length := by
          have hc := congrArg List.length heq3
          have hsb : (skipSp ((skipSp s).dropWhile (fun c => !specialChar c))).length ≤
              ((skipSp s).dropWhile (fun c => !specialChar c)).length :=
            length_dropWhile_le _ _
          simp only [List.length_cons] at hc
          omega
        split at h
        next s4 heq4 =>
          have h4 : s4.length < s3.length := by
            have hc := congrArg List.length heq4
            have hs3 : (skipSp s3).length ≤ s3.length :=
              length_dropWhile_le _ _
            simp only [List.length_cons] at hc
            omega
          split at h
          next s5 heq5 =>
            have h5 : s5.length < s4.length := by
              have hc := congrArg List.length heq5
              have hs4 : (s4.dropWhile (· ≠ '"')).length ≤ s4.length :=
                length_dropWhile_le _ _
              simp only [List.length_cons] at hc
              omega
            obtain ⟨p, hp, hfx⟩ := Option.map_eq_some'.mp h
            have hr := hrec _ _ hp
            rw [← hfx]
            simp only []
            omega
          · exact Option.noConfusion h
        next s4 heq4 =>
          have h4 : s4.length < s3.length := by
            have hc := congrArg List.length heq4
            have hs3 : (skipSp s3).length ≤ s3.length :=
              length_dropWhile_le _ _
            simp only [List.length_cons] at hc
            omega
          obtain ⟨p, hp, hfx⟩ := Option.map_eq_some'.mp h
          have hr := hrec _ _ hp
          rw [← hfx]
          simp only []
          omega
        · exact Option.noConfusion h
      next s3 heq3 =>
        have h3 : s3.length < (skipSp s).length := by
          have hc := congrArg List.length heq3
          have hsb : (skipSp ((skipSp s).dropWhile (fun c => !specialChar c))).length ≤
              ((skipSp s).dropWhile (fun c => !specialChar c)).length :=
            length_dropWhile_le _ _
          simp only [List.length_cons] at hc
          omega
        split at h
        next inner s4 heq =>
          have h4 : s4.length < s3.length := by
            have hr := hrec _ _ heq
            simp only [List.length_cons] at hr
            omega
          split at h
          · exact Option.noConfusion h
          next hinner =>
            obtain ⟨p, hp, hfx⟩ := Option.map_eq_some'.mp h
            have hr := hrec _ _ hp
            rw [← hfx]
            simp only []
            omega
        next hno =>
          exact Option.noConfusion h
      · exact Option.noConfusion h

theorem parseEntries_rem :
    ∀ (f : Nat) (s : List Char) (y : TokDict × List Char),
      parseEntries f s = some y → y.2.length ≤ s.length := by
  intro f
  induction f with
  | zero => intro s y h; exact Option.noConfusion h
  | succ n ih =>
    intro s y h
    rw [parseEntries] at h
    exact parseStep_rem (parseEntries n) ih s y h

theorem parseEntries_mono_ge :
    ∀ (f g : Nat), f ≤ g → ∀ (s : List Char) (y : TokDict × List Char),
      parseEntries f s = some y → parseEntries g s = some y := by
  intro f g hle
  induction g with
  | zero =>
    intro s y h
    have : f = 0 := Nat.le_zero.mp hle
    rw [← this]; exact h
  | succ n ih =>
    intro s y h
    rcases Nat.lt_or_ge f (n + 1) with hlt | hge
    · exact parseEntries_mono n s y (ih (Nat.lt_succ_iff.mp hlt) s y h)
    · have : f = n + 1 := Nat.le_antisymm hle hge
      rw [← this]; exact h

theorem parseStep_congr (rec rec' : List Char → Option (TokDict × List Char))
    (s : List Char)
    (hrem : ∀ t y, rec t = some y → y.2.length ≤ t.length)
    (hlt : ∀ t, t.length < s.length → rec t = rec' t) :
    parseStep rec s = parseStep rec' s := by
  have hA : (skipSp s).length ≤ s.length := length_dropWhile_le _ s
  have hB : ((skipSp s).dropWhile (fun c => !specialChar c)).length ≤ (skipSp s).length :=
    length_dropWhile_le _ _
  simp only [parseStep]
  split
  · rfl
  · rfl
  · split
    · rfl
    next hid =>
      split
      next s3 heq3 =>
        have h3 : s3.length < s.length := by
          have hc := congrArg List.length heq3
          have hsb : (skipSp ((skipSp s).dropWhile (fun c => !specialChar c))).length ≤
              ((skipSp s).dropWhile (fun c => !specialChar c)).length :=
            length_dropWhile_le _ _
          simp only [List.length_cons] at hc
          omega
        split
        next s4 heq4 =>
          have h4 : s4.length < s3.length := by
            have hc := congrArg List.length heq4
            have hs3 : (skipSp s3).length ≤ s3.length := length_dropWhile_le _ _
            simp only [List.length_cons] at hc
            omega
          split
          next s5 heq5 =>
            have h5 : s5.length < s4.length := by
              have hc := congrArg List.length heq5
              have hs4 : (s4.dropWhile (· ≠ '"')).length ≤ s4.length :=
                length_dropWhile_le _ _
              simp only [List.length_cons] at hc
              omega
            rw [hlt s5 (by omega)]
          · rfl
        next s4 heq4 =>
          have h4 : s4.length < s3.length := by
            have hc := congrArg List.length heq4
            have hs3 : (skipSp s3).length ≤ s3.length := length_dropWhile_le _ _
            simp only [List.length_cons] at hc
            omega
          rw [hlt s4 (by omega)]
        · rfl
      next s3 heq3 =>
        have h3 : s3.length < s.length := by
          have hc := congrArg List.length heq3
          have hsb : (skipSp ((skipSp s).dropWhile (fun c => !specialChar c))).length ≤
              ((skipSp s).dropWhile (fun c => !specialChar c)).length :=
            length_dropWhile_le _ _
          simp only [List.length_cons] at hc
          omega
        rw [hlt s3 h3]
        split
        next inner s4 heq =>
          have hrec3 : rec s3 = some (inner, '\x7d' :: s4) := by
            rw [hlt s3 h3]; exact heq
          have h4 : s4.length < s3.length := by
            have hr := hrem _ _ hrec3
            simp only [List.length_cons] at hr
            omega
          split
          · rfl
          · rw [hlt s4 (by omega)]
        next hno => rfl
      · rfl

theorem parseEntries_fuel_eq :
    ∀ (n : Nat) (s : List Char), s.length ≤ n →
      ∀ f g, s.length < f → s.length < g → parseEntries f s = parseEntries g s := by
  intro n
  induction n with
  | zero =>
    intro s hs f g hf hg
    have hnil : s = [] := List.eq_nil_of_length_eq_zero (by omega)
    subst hnil
    obtain ⟨f', rfl⟩ : ∃ f', f = f' + 1 := ⟨f - 1, by omega⟩
    obtain ⟨g', rfl⟩ : ∃ g', g = g' + 1 := ⟨g - 1, by omega⟩
    rfl
  | succ n ih =>
    intro s hs f g hf hg
    obtain ⟨f', rfl⟩ : ∃ f', f = f' + 1 := ⟨f - 1, by omega⟩
    obtain ⟨g', rfl⟩ : ∃ g', g = g' + 1 := ⟨g - 1, by omega⟩
    rw [parseEntries, parseEntries]
    apply parseStep_congr (parseEntries f') (parseEntries g') s (parseEntries_rem f')
    intro t ht
    exact ih t (by omega) f' g' (by omega) (by omega)

/-- Whenever some fuel makes the entry parser succeed, the canonical fuel
`length + 1` used by `parseTagged` gives the same result. -/
theorem parseEntries_adequate (f : Nat) (s : List Char) (y : TokDict × List Char)
    (h : parseEntries f s = some y) :
    parseEntries (s.length + 1) s = some y := by
  rcases le_or_lt f (s.length + 1) with hle | hlt
  · exact parseEntries_mono_ge f (s.length + 1) hle s y h
  · rw [parseEntries_fuel_eq s.length s (le_refl _) (s.length + 1) f
      (by omega) (by omega)]
    exact h

theorem TokDict.append_nil : (d : TokDict) → d.append .nil = d
  | .nil => rfl
  | .cons k v rest => by rw [TokDict.append, TokDict.append_nil rest]

theorem specialChar_eq_false {c : Char} (h : specialChar c = false) :
    ¬(c = ' ') ∧ ¬(c = ':') ∧ ¬(c = '\x7b') ∧ ¬(c = '\x7d') ∧ ¬(c = '"') := by
  simp [specialChar] at h
  obtain ⟨⟨⟨⟨h1, h2⟩, h3⟩, h4⟩, h5⟩ := h
  exact ⟨h1, h2, h3, h4, h5⟩

theorem goodKey_parts {k : String} (h : goodKey k = true) :
    ¬k.data.isEmpty = true ∧ ∀ c ∈ k.data, specialChar c = false := by
  rw [goodKey, Bool.and_eq_true] at h
  have h1 : k.data.isEmpty = false := by simpa using h.1
  refine ⟨by simp [h1], ?_⟩
  intro c hc
  have := List.all_eq_true.mp h.2 c hc
  simpa using this

theorem goodStr_parts {v : String} (h : goodStr v = true) :
    ∀ c ∈ v.data, (c ≠ '"') := by
  intro c hc
  have := List.all_eq_true.mp h c hc
  simpa using this

theorem parseEntries_space (f : Nat) (s : List Char) :
    parseEntries f (' ' :: s) = parseEntries f s := by
  cases f with
  | zero => rfl
  | succ n =>
    rw [parseEntries, parseEntries]
    simp only [parseStep, skipSp_cons_space]

/-! ### How the parser consumes one serialized entry -/

theorem parseStep_vstr (rec : List Char → Option (TokDict × List Char))
    (k v : String) (cont : List Char) (hk : goodKey k = true) (hv : goodStr v = true) :
    parseStep rec (TokVal.serializeEntry k (.vstr v) ++ cont) =
      (rec (' ' :: cont)).map (fun p => (.cons k (.vstr v) p.1, p.2)) := by
  obtain ⟨hkne, hkall⟩ := goodKey_parts hk
  obtain ⟨c, cs, hk0⟩ : ∃ c cs, k.data = c :: cs := by
    cases hck : k.data with
    | nil => rw [hck] at hkne; simp at hkne
    | cons c cs => exact ⟨c, cs, rfl⟩
  have hcall : ∀ ch ∈ k.data, (fun ch => !specialChar ch) ch = true := by
    intro ch hch
    simp [hkall ch hch]
  obtain ⟨hc1, hc2, hc3, hc4, hc5⟩ := specialChar_eq_false (hkall c (by rw [hk0]; simp))
  have hser : TokVal.serializeEntry k (.vstr v) ++ cont =
      k.data ++ ':' :: ' ' :: '"' :: (v.data ++ '"' :: ' ' :: cont) := by
    simp [TokVal.serializeEntry, List.append_assoc]
  have hskip1 : skipSp (k.data ++ ':' :: ' ' :: '"' :: (v.data ++ '"' :: ' ' :: cont)) =
      k.data ++ ':' :: ' ' :: '"' :: (v.data ++ '"' :: ' ' :: cont) := by
    rw [hk0, List.cons_append]
    exact skipSp_cons_other c _ (by simp [hc1])
  have htake : (k.data ++ ':' :: ' ' :: '"' :: (v.data ++ '"' :: ' ' :: cont)).takeWhile
      (fun ch => !specialChar ch) = k.data := by
    rw [takeWhile_append_all _ _ _ hcall,
      takeWhile_cons_false _ _ _ (by decide)]
    simp
  have hdropk : (k.data ++ ':' :: ' ' :: '"' :: (v.data ++ '"' :: ' ' :: cont)).dropWhile
      (fun ch => !specialChar ch) = ':' :: ' ' :: '"' :: (v.data ++ '"' :: ' ' :: cont) := by
    rw [dropWhile_append_all _ _ _ hcall,
      dropWhile_cons_false _ _ _ (by decide)]
  have hvall : ∀ ch ∈ v.data, (fun ch => decide ¬(ch = '"')) ch = true := by
    intro ch hch
    simp [goodStr_parts hv ch hch]
  have htakev : (v.data ++ '"' :: ' ' :: cont).takeWhile (· ≠ '"') = v.data := by
    rw [takeWhile_append_all _ _ _ hvall, takeWhile_cons_false _ _ _ (by decide)]
    simp
  have hdropv : (v.data ++ '"' :: ' ' :: cont).dropWhile (· ≠ '"') = '"' :: ' ' :: cont := by
    rw [dropWhile_append_all _ _ _ hvall, dropWhile_cons_false _ _ _ (by decide)]
  rw [hser]
  simp only [parseStep]
  rw [hskip1]
  split
  next heq =>
    rw [hk0, List.cons_append] at heq
    exact List.noConfusion heq
  next r heq =>
    rw [hk0, List.cons_append] at heq
    injection heq with h1 _
    exact absurd h1 hc4
  · rw [htake, hdropk]
    rw [if_neg (by rw [hk0]; simp)]
    rw [skipSp_cons_other ':' _ (by decide)]
    split
    next s3 heq =>
      injection heq with _ heq1
      subst heq1
      rw [skipSp_cons_space, skipSp_cons_other '"' _ (by decide)]
      split
      next s4 heq =>
        injection heq with _ heq1
        subst heq1
        rw [hdropv]
        split
        next s5 heq =>
          injection heq with _ heq1
          subst heq1
          rw [htakev]
        next hno =>
          exact absurd rfl (hno (' ' :: cont))
      next s4 heq =>
        injection heq with h1 _
        exact absurd h1 (by decide)
      next h1 h2 =>
        exact absurd rfl (h1 (v.data ++ '"' :: ' ' :: cont))
    next s3 heq =>
      injection heq with h1 _
      exact absurd h1 (by decide)
    next h1 h2 =>
      exact absurd rfl (h1 (' ' :: '"' :: (v.data ++ '"' :: ' ' :: cont)))

theorem parseStep_vbool (rec : List Char → Option (TokDict × List Char))
    (k : String) (cont : List Char) (hk : goodKey k = true) :
    parseStep rec (TokVal.serializeEntry k .vbool ++ cont) =
      (rec (' ' :: cont)).map (fun p => (.cons k .vbool p.1, p.2)) := by
  obtain ⟨hkne, hkall⟩ := goodKey_parts hk
  obtain ⟨c, cs, hk0⟩ : ∃ c cs, k.data = c :: cs := by
    cases hck : k.data with
    | nil => rw [hck] at hkne; simp at hkne
    | cons c cs => exact ⟨c, cs, rfl⟩
  have hcall : ∀ ch ∈ k.data, (fun ch => !specialChar ch) ch = true := by
    intro ch hch
    simp [hkall ch hch]
  obtain ⟨hc1, hc2, hc3, hc4, hc5⟩ := specialChar_eq_false (hkall c (by rw [hk0]; simp))
  have hser : TokVal.serializeEntry k .vbool ++ cont =
      k.data ++ ':' :: ' ' :: 't' :: 'r' :: 'u' :: 'e' :: ' ' :: cont := by
    simp [TokVal.serializeEntry, List.append_assoc,
      show (": true ").data = [':', ' ', 't', 'r', 'u', 'e', ' '] from rfl]
  have hskip1 : skipSp (k.data ++ ':' :: ' ' :: 't' :: 'r' :: 'u' :: 'e' :: ' ' :: cont) =
      k.data ++ ':' :: ' ' :: 't' :: 'r' :: 'u' :: 'e' :: ' ' :: cont := by
    rw [hk0, List.cons_append]
    exact skipSp_cons_other c _ (by simp [hc1])
  have htake : (k.data ++ ':' :: ' ' :: 't' :: 'r' :: 'u' :: 'e' :: ' ' :: cont).takeWhile
      (fun ch => !specialChar ch) = k.data := by
    rw [takeWhile_append_all _ _ _ hcall, takeWhile_cons_false _ _ _ (by decide)]
    simp
  have hdropk : (k.data ++ ':' :: ' ' :: 't' :: 'r' :: 'u' :: 'e' :: ' ' :: cont).dropWhile
      (fun ch => !specialChar ch) = ':' :: ' ' :: 't' :: 'r' :: 'u' :: 'e' :: ' ' :: cont := by
    rw [dropWhile_append_all _ _ _ hcall, dropWhile_cons_false _ _ _ (by decide)]
  rw [hser]
  simp only [parseStep]
  rw [hskip1]
  split
  next heq =>
    rw [hk0, List.cons_append] at heq
    exact List.noConfusion heq
  next r heq =>
    rw [hk0, List.cons_append] at heq
    injection heq with h1 _
    exact absurd h1 hc4
  · rw [htake, hdropk]
    rw [if_neg (by rw [hk0]; simp)]
    rw [skipSp_cons_other ':' _ (by decide)]
    split
    next s3 heq =>
      injection heq with _ heq1
      subst heq1
      rw [skipSp_cons_space, skipSp_cons_other 't' _ (by decide)]
      split
      next s4 heq =>
        injection heq with h1 _
        exact absurd h1 (by decide)
      next s4 heq =>
        injection heq with _ heq
        injection heq with _ heq
        injection heq with _ heq
        injection heq with _ heq
        subst heq
        rfl
      next h1 h2 =>
        exact absurd rfl (h2 (' ' :: cont))
    next s3 heq =>
      injection heq with h1 _
      exact absurd h1 (by decide)
    next h1 h2 =>
      exact absurd rfl (h1 (' ' :: 't' :: 'r' :: 'u' :: 'e' :: ' ' :: cont))

theorem parseStep_vdict (rec : List Char → Option (TokDict × List Char))
    (k : String) (dI : TokDict) (cont : List Char) (hk : goodKey k = true) :
    parseStep rec (TokVal.serializeEntry k (.vdict dI) ++ cont) =
      match rec (' ' :: (dI.serialize ++ ' ' :: '\x7d' :: ' ' :: cont)) with
      | some (inner, '\x7d' :: s4) =>
        if inner = .nil then none
        else (rec s4).map (fun p => (.cons k (.vdict inner) p.1, p.2))
      | _ => none := by
  obtain ⟨hkne, hkall⟩ := goodKey_parts hk
  obtain ⟨c, cs, hk0⟩ : ∃ c cs, k.data = c :: cs := by
    cases hck : k.data with
    | nil => rw [hck] at hkne; simp at hkne
    | cons c cs => exact ⟨c, cs, rfl⟩
  have hcall : ∀ ch ∈ k.data, (fun ch => !specialChar ch) ch = true := by
    intro ch hch
    simp [hkall ch hch]
  obtain ⟨hc1, hc2, hc3, hc4, hc5⟩ := specialChar_eq_false (hkall c (by rw [hk0]; simp))
  have hser : TokVal.serializeEntry k (.vdict dI) ++ cont =
      ' ' :: (k.data ++ ' ' :: '\x7b' :: ' ' ::
        (dI.serialize ++ ' ' :: '\x7d' :: ' ' :: cont)) := by
    simp [TokVal.serializeEntry, List.append_assoc]
  have hskip1 : skipSp (' ' :: (k.data ++ ' ' :: '\x7b' :: ' ' ::
      (dI.serialize ++ ' ' :: '\x7d' :: ' ' :: cont))) =
      k.data ++ ' ' :: '\x7b' :: ' ' :: (dI.serialize ++ ' ' :: '\x7d' :: ' ' :: cont) := by
    rw [skipSp_cons_space, hk0, List.cons_append]
    exact skipSp_cons_other c _ (by simp [hc1])
  have htake : (k.data ++ ' ' :: '\x7b' :: ' ' ::
      (dI.serialize ++ ' ' :: '\x7d' :: ' ' :: cont)).takeWhile
      (fun ch => !specialChar ch) = k.data := by
    rw [takeWhile_append_all _ _ _ hcall, takeWhile_cons_false _ _ _ (by decide)]
    simp
  have hdropk : (k.data ++ ' ' :: '\x7b' :: ' ' ::
      (dI.serialize ++ ' ' :: '\x7d' :: ' ' :: cont)).dropWhile
      (fun ch => !specialChar ch) =
      ' ' :: '\x7b' :: ' ' :: (dI.serialize ++ ' ' :: '\x7d' :: ' ' :: cont) := by
    rw [dropWhile_append_all _ _ _ hcall, dropWhile_cons_false _ _ _ (by decide)]
  rw [hser]
  simp only [parseStep]
  rw [hskip1]
  split
  next heq =>
    rw [hk0, List.cons_append] at heq
    exact List.noConfusion heq
  next r heq =>
    rw [hk0, List.cons_append] at heq
    injection heq with h1 _
    exact absurd h1 hc4
  · rw [htake, hdropk]
    rw [if_neg (by rw [hk0]; simp)]
    rw [skipSp_cons_space, skipSp_cons_other '\x7b' _ (by decide)]
    split
    next s3 heq =>
      injection heq with h1 _
      exact absurd h1 (by decide)
    next s3 heq =>
      injection heq with _ heq1
      subst heq1
      simp only [htake]
    next h1 h2 =>
      exact absurd rfl
        (h2 (' ' :: (dI.serialize ++ ' ' :: '\x7d' :: ' ' :: cont)))

/-! ### Round trip: parsing a serialized well-formed tree -/

mutual
theorem rt_entry : (v : TokVal) → ∀ (k : String), goodKey k = true →
    TokVal.wf v = true →
    ∀ (cont : List Char) (d2 : TokDict) (r : List Char) (f : Nat),
      parseEntries f cont = some (d2, r) →
      ∃ g, parseEntries g (TokVal.serializeEntry k v ++ cont) =
        some (.cons k v d2, r)
  | .vstr v => by
    intro k hk hv cont d2 r f hcont
    refine ⟨f + 1, ?_⟩
    rw [parseEntries, parseStep_vstr (parseEntries f) k v cont hk hv,
      parseEntries_space f cont, hcont]
    rfl
  | .vbool => by
    intro k hk _ cont d2 r f hcont
    refine ⟨f + 1, ?_⟩
    rw [parseEntries, parseStep_vbool (parseEntries f) k cont hk,
      parseEntries_space f cont, hcont]
    rfl
  | .vdict dI => by
    intro k hk hv cont d2 r f hcont
    have hne : dI ≠ .nil := by
      intro h
      subst h
      exact Bool.noConfusion hv
    have hwfI : TokDict.wfEntries dI = true := by
      cases dI with
      | nil => exact absurd rfl hne
      | cons k0 v0 r0 =>
        have hw : TokVal.wf (.vdict (.cons k0 v0 r0)) =
            (true && TokDict.wfEntries (.cons k0 v0 r0)) := rfl
        rw [hw, Bool.true_and] at hv
        exact hv
    have hstop : parseEntries 1 (' ' :: '\x7d' :: ' ' :: cont) =
        some (.nil, '\x7d' :: ' ' :: cont) := rfl
    obtain ⟨g1, hg1⟩ := rt_dict dI hwfI (' ' :: '\x7d' :: ' ' :: cont) .nil
      ('\x7d' :: ' ' :: cont) 1 hstop
    rw [TokDict.append_nil] at hg1
    have hg1' := parseEntries_mono_ge g1 (max g1 f) (le_max_left _ _) _ _ hg1
    have hcont' := parseEntries_mono_ge f (max g1 f) (le_max_right _ _) _ _ hcont
    refine ⟨max g1 f + 1, ?_⟩
    rw [parseEntries, parseStep_vdict (parseEntries (max g1 f)) k dI cont hk,
      parseEntries_space (max g1 f), hg1']
    show (if dI = TokDict.nil then none
      else Option.map (fun p => (TokDict.cons k (TokVal.vdict dI) p.1, p.2))
        (parseEntries (max g1 f) (' ' :: cont))) =
      some (TokDict.cons k (TokVal.vdict dI) d2, r)
    rw [if_neg hne, parseEntries_space (max g1 f), hcont']
    rfl

theorem rt_dict : (d : TokDict) → TokDict.wfEntries d = true →
    ∀ (cont : List Char) (d2 : TokDict) (r : List Char) (f : Nat),
      parseEntries f cont = some (d2, r) →
      ∃ g, parseEntries g (d.serialize ++ cont) = some (d.append d2, r)
  | .nil => by
    intro _ cont d2 r f h
    exact ⟨f, by simpa [TokDict.serialize, TokDict.append] using h⟩
  | .cons k v rest => by
    intro hwf cont d2 r f h
    rw [TokDict.wfEntries, Bool.and_eq_true, Bool.and_eq_true] at hwf
    obtain ⟨⟨hk, hv⟩, hrest⟩ := hwf
    obtain ⟨g1, hg1⟩ := rt_dict rest hrest cont d2 r f h
    obtain ⟨g2, hg2⟩ := rt_entry v k hk hv (rest.serialize ++ cont)
      (rest.append d2) r g1 hg1
    refine ⟨g2, ?_⟩
    rw [show TokDict.serialize (.cons k v rest) ++ cont =
      TokVal.serializeEntry k v ++ (TokDict.serialize rest ++ cont) by
        simp [TokDict.serialize, List.append_assoc]]
    exact hg2
end

theorem rt_tokens :
    ∀ ts : List TokDict, (∀ t ∈ ts, wfToken t = true) →
      ∃ g, parseEntries g (serializeTokens ts) = some (flatTokens ts, []) := by
  intro ts
  induction ts with
  | nil => intro _; exact ⟨1, rfl⟩
  | cons t ts ih =>
    intro h
    obtain ⟨g1, hg1⟩ := ih (fun u hu => h u (by simp [hu]))
    have ht := h t (by simp)
    obtain ⟨k, v, rfl⟩ : ∃ k v, t = TokDict.cons k v .nil := by
      cases t with
      | nil => exact absurd ht (by simp [wfToken])
      | cons k v rest =>
        cases rest with
        | nil => exact ⟨k, v, rfl⟩
        | cons _ _ _ => exact absurd ht (by simp [wfToken])
    rw [wfToken, Bool.and_eq_true] at ht
    obtain ⟨g2, hg2⟩ := rt_entry v k ht.1 ht.2 (serializeTokens ts)
      (flatTokens ts) [] g1 hg1
    refine ⟨g2, ?_⟩
    rw [show serializeTokens (TokDict.cons k v .nil :: ts) =
      TokVal.serializeEntry k v ++ serializeTokens ts by
        simp [serializeTokens, TokDict.serialize]]
    exact hg2

theorem splitTop_flat :
    ∀ ts : List TokDict, (∀ t ∈ ts, wfToken t = true) →
      splitTop (flatTokens ts) = ts := by
  intro ts
  induction ts with
  | nil => intro _; rfl
  | cons t ts ih =>
    intro h
    have ht := h t (by simp)
    obtain ⟨k, v, rfl⟩ : ∃ k v, t = TokDict.cons k v .nil := by
      cases t with
      | nil => exact absurd ht (by simp [wfToken])
      | cons k v rest =>
        cases rest with
        | nil => exact ⟨k, v, rfl⟩
        | cons _ _ _ => exact absurd ht (by simp [wfToken])
    show TokDict.cons k v .nil :: splitTop (flatTokens ts) = _
    rw [ih (fun u hu => h u (by simp [hu]))]

/-- Parsing the in-order serialization of well-formed top-level tokens
recovers exactly those tokens. -/
theorem parse_of_serialize (ts : List TokDict)
    (h : ∀ t ∈ ts, wfToken t = true) :
    parseTagged (serializeTokens ts) = some ts := by
  obtain ⟨g, hg⟩ := rt_tokens ts h
  have hade := parseEntries_adequate g (serializeTokens ts) (flatTokens ts, []) hg
  rw [parseTagged, hade]
  show some (splitTop (flatTokens ts)) = some ts
  rw [splitTop_flat ts h]

/-! ### The parser only produces well-formed tokens -/

theorem wfEntries_of_parseStep (rec : List Char → Option (TokDict × List Char))
    (hrec : ∀ t y, rec t = some y → TokDict.wfEntries y.1 = true) :
    ∀ s y, parseStep rec s = some y → TokDict.wfEntries y.1 = true := by
  intro s y h
  have hkey : goodKey (String.mk ((skipSp s).takeWhile
      (fun c => !specialChar c))) = true ∨
      ((skipSp s).takeWhile (fun c => !specialChar c)).isEmpty = true := by
    cases hemp : ((skipSp s).takeWhile (fun c => !specialChar c)).isEmpty with
    | true => exact Or.inr rfl
    | false =>
      refine Or.inl ?_
      rw [goodKey, Bool.and_eq_true]
      constructor
      · simpa using hemp
      · rw [List.all_eq_true]
        intro c hc
        have hc2 : c ∈ (skipSp s).takeWhile (fun c => !specialChar c) := by
          simpa using hc
        simpa using List.mem_takeWhile_imp hc2
  simp only [parseStep] at h
  split at h
  · cases h; rfl
  · cases h; rfl
  · split at h
    · exact Option.noConfusion h
    next hid =>
      have hgood : goodKey (String.mk ((skipSp s).takeWhile
          (fun c => !specialChar c))) = true := by
        rcases hkey with hk | hk
        · exact hk
        · exact absurd hk hid
      split at h
      · split at h
        next s4 heq4 =>
          split at h
          next s5 heq5 =>
            obtain ⟨p, hp, hfx⟩ := Option.map_eq_some'.mp h
            rw [← hfx]
            show TokDict.wfEntries (.cons _ _ p.1) = true
            rw [TokDict.wfEntries, Bool.and_eq_true, Bool.and_eq_true]
            refine ⟨⟨hgood, ?_⟩, hrec s5 p hp⟩
            show goodStr (String.mk (s4.takeWhile (· ≠ '"'))) = true
            rw [goodStr, List.all_eq_true]
            intro c hc
            have hc2 : c ∈ s4.takeWhile (fun x => x ≠ '"') := by
              simpa using hc
            have := List.mem_takeWhile_imp hc2
            simpa using this
          · exact Option.noConfusion h
        next s4 heq4 =>
          obtain ⟨p, hp, hfx⟩ := Option.map_eq_some'.mp h
          rw [← hfx]
          show TokDict.wfEntries (.cons _ _ p.1) = true
          rw [TokDict.wfEntries, Bool.and_eq_true, Bool.and_eq_true]
          exact ⟨⟨hgood, rfl⟩, hrec s4 p hp⟩
        · exact Option.noConfusion h
      · split at h
        next inner s4 heq =>
          split at h
          · exact Option.noConfusion h
          next hinner =>
            obtain ⟨p, hp, hfx⟩ := Option.map_eq_some'.mp h
            rw [← hfx]
            show TokDict.wfEntries (.cons _ _ p.1) = true
            rw [TokDict.wfEntries, Bool.and_eq_true, Bool.and_eq_true]
            refine ⟨⟨hgood, ?_⟩, hrec s4 p hp⟩
            have hwfI : TokDict.wfEntries inner = true := hrec _ _ heq
            cases inner with
            | nil => exact absurd rfl hinner
            | cons k0 v0 r0 =>
              show (true && TokDict.wfEntries (.cons k0 v0 r0)) = true
              rw [Bool.true_and]
              exact hwfI
        next hno =>
          exact Option.noConfusion h
      · exact Option.noConfusion h

theorem wfEntries_of_parseEntries :
    ∀ (f : Nat) (s : List Char) (y : TokDict × List Char),
      parseEntries f s = some y → TokDict.wfEntries y.1 = true := by
  intro f
  induction f with
  | zero => intro s y h; exact Option.noConfusion h
  | succ n ih =>
    intro s y h
    rw [parseEntries] at h
    exact wfEntries_of_parseStep (parseEntries n) ih s y h

theorem splitTop_wf :
    (d : TokDict) → TokDict.wfEntries d = true →
      ∀ t ∈ splitTop d, wfToken t = true
  | .nil => by intro _ t ht; cases ht
  | .cons k v rest => by
    intro h t ht
    rw [TokDict.wfEntries, Bool.and_eq_true, Bool.and_eq_true] at h
    rcases List.mem_cons.mp ht with ht | ht
    · subst ht
      rw [wfToken, Bool.and_eq_true]
      exact h.1
    · exact splitTop_wf rest h.2 t ht

/-- The parser only produces lists of well-formed singleton tokens. -/
theorem parseTagged_wf (s : List Char) (ts : List TokDict)
    (h : parseTagged s = some ts) : ∀ t ∈ ts, wfToken t = true := by
  rw [parseTagged] at h
  split at h
  next d heq =>
    have hwf := wfEntries_of_parseEntries (s.length + 1) s (d, []) heq
    cases h
    exact splitTop_wf d hwf
  · exact Option.noConfusion h

/-! ### The serializer is the first variant `_permute` enumerates -/

theorem pyPermAux_head :
    ∀ (l : List (List (List Char))),
      ∃ t, pyPermAux l.length l = l :: t := by
  intro l
  induction l with
  | nil => exact ⟨[], rfl⟩
  | cons x xs ih =>
    obtain ⟨t, ht⟩ := ih
    refine ⟨t.map (fun r => x :: r) ++
      ((pySelections xs).map (fun p => (p.1, x :: p.2))).flatMap
        (fun p => (pyPermAux xs.length p.2).map (p.1 :: ·)), ?_⟩
    rw [show (x :: xs).length = xs.length + 1 from rfl, pyPermAux]
    rw [show pySelections (x :: xs) =
      (x, xs) :: (pySelections xs).map (fun p => (p.1, x :: p.2)) from rfl]
    rw [List.flatMap_cons, ht]
    simp only [List.map_cons, List.cons_append]

mutual
theorem optionsOf_head : (v : TokVal) → ∀ (k : String),
    ∃ t, TokVal.optionsOf k v = TokVal.serializeEntry k v :: t
  | .vstr s => fun k => ⟨[], rfl⟩
  | .vbool => fun k => ⟨[], rfl⟩
  | .vdict d => fun k => by
    obtain ⟨t, ht⟩ := cartesian_entryOptions_head d
    rw [TokVal.optionsOf, assemblePermute]
    split
    · rw [ht]
      exact ⟨_, rfl⟩
    · obtain ⟨t2, ht2⟩ := pyPermAux_head (TokDict.entryOptions d)
      rw [show pyPermutations (TokDict.entryOptions d) =
        pyPermAux (TokDict.entryOptions d).length (TokDict.entryOptions d) from rfl,
        ht2, List.flatMap_cons, ht]
      exact ⟨_, rfl⟩

theorem cartesian_entryOptions_head : (d : TokDict) →
    ∃ t, cartesian (TokDict.entryOptions d) = TokDict.serialize d :: t
  | .nil => ⟨[], rfl⟩
  | .cons k v rest => by
    obtain ⟨t1, ht1⟩ := optionsOf_head v k
    obtain ⟨t2, ht2⟩ := cartesian_entryOptions_head rest
    rw [TokDict.entryOptions, cartesian, ht1, List.flatMap_cons, ht2]
    exact ⟨_, rfl⟩
end

/-- `TokDict.serialize` is exactly the first serialization `_permute`
enumerates for a dictionary (with or without `preserve_order`). -/
theorem permute_head (d : TokDict) :
    ∃ t, TokDict.permute d = TokDict.serialize d :: t := by
  rw [TokDict.permute, assemblePermute]
  obtain ⟨t, ht⟩ := cartesian_entryOptions_head d
  split
  · exact ⟨t, ht⟩
  · obtain ⟨t2, ht2⟩ := pyPermAux_head (TokDict.entryOptions d)
    rw [show pyPermutations (TokDict.entryOptions d) =
      pyPermAux (TokDict.entryOptions d).length (TokDict.entryOptions d) from rfl,
      ht2, List.flatMap_cons, ht]
    exact ⟨_, rfl⟩

/-- `serializeTokens` is exactly the first variant `generate_permutations`
enumerates for a token list. -/
theorem generatePermutations_head :
    ∀ ts : List TokDict, ∃ t, generatePermutations ts = serializeTokens ts :: t := by
  intro ts
  induction ts with
  | nil => exact ⟨[], rfl⟩
  | cons u ts ih =>
    obtain ⟨t1, ht1⟩ := permute_head u
    obtain ⟨t2, ht2⟩ := ih
    refine ⟨t2.map (fun r => TokDict.serialize u ++ r) ++
      t1.flatMap (fun opt => (generatePermutations ts).map (opt ++ ·)), ?_⟩
    rw [generatePermutations, ht1, List.flatMap_cons, ht2]
    rw [show serializeTokens (u :: ts) = TokDict.serialize u ++ serializeTokens ts by
      simp [serializeTokens]]
    simp only [List.map_cons, List.cons_append]

/-! ### C9: the round trip -/

/-- C9: for every token tree producible by the parser — every token list
`ts` the structured token parser returns on some tagged serialization —
parsing the tagged-serialization writer's output for `ts` yields `ts`
again: `parse(serialize(ts)) = ts`.  The writer `serializeTokens` is the
first variant `_permute`/`generate_permutations` enumerates
(`generatePermutations_head`). -/
theorem c9_round_trip (s : List Char) (ts : List TokDict)
    (h : parseTagged s = some ts) :
    parseTagged (serializeTokens ts) = some ts :=
  parse_of_serialize ts (parseTagged_wf s ts h)

/-- C9, witness: the round trip at the concrete token
`tokens { a: "x" b: "y" }`. -/
theorem c9_witness :
    parseTagged (serializeTokens [smallToken]) = some [smallToken] :=
  c9_round_trip tinyTagged [smallToken] rfl

end IndicTN
